import Mathlib

/-
Verification of the `cope` argument-rewriting engine (src/main.rs,
src/file_utils.rs, src/string_utils.rs) against its specification.

Modelling conventions, shared by all definitions below:

* A filesystem path is modelled by its list of normal components,
  `Path := List (List Char)`; the leading root `/` of an absolute path is
  implicit.  `[]` is the filesystem root `/`.  `PathBuf::pop` is `dropLast`
  (a no-op on the root), `join` of one component is `++ [c]`.
* During normalization we also track the special components `.`, `..` and
  the root marker explicitly, via `PComp`, exactly as Rust's
  `Path::components` classifies them.
* An `OsString` is a list of characters together with a UTF-8 validity
  flag (`OsStr.valid`); `to_str` succeeds exactly on valid ones.
* A Rust panic (`expect` / `panic!` / `unwrap_or_else(panic!)`) is
  `Option.none`; fallible modelled functions return `Option`.
* The external collaborators that the spec declares out of scope
  (filesystem queries, the JSON-with-comments parser, the interactive
  chooser, the current working directory) are the fields of `Env`; each
  repository function reads only the fields its Rust original touches.
* `u8` bytes are `Nat` values below 256.
-/

set_option maxRecDepth 100000

namespace Cope

/-- Path components as classified by Rust's `Path::components`. -/
inductive PComp where
  | rootDir
  | curDir
  | parentDir
  | normal (s : List Char)
deriving DecidableEq

/-- An absolute path as its list of normal components (implicit leading root). -/
abbrev Path := List (List Char)

/-- Generic boolean prefix test on lists (Rust `Path::strip_prefix` succeeds,
`str::starts_with`). -/
def isPre {α : Type} [DecidableEq α] : List α → List α → Bool
  | [], _ => true
  | _ :: _, [] => false
  | a :: as, b :: bs => if a = b then isPre as bs else false

/-- Split a character list at every slash (used to recover Rust's component
parsing of a path string). -/
def splitSlash : List Char → List (List Char)
  | [] => [[]]
  | c :: rest =>
    match splitSlash rest with
    | [] => [[c]]
    | h :: t => if c = '/' then [] :: h :: t else (c :: h) :: t

/-- Classify one textual path segment the way `Path::components` does:
empty segments vanish, `.` is a current-dir component, `..` a parent-dir
component, anything else a normal component. -/
def toPComp (c : List Char) : Option PComp :=
  if c = [] then none
  else if c = ['.'] then some PComp.curDir
  else if c = ['.', '.'] then some PComp.parentDir
  else some (PComp.normal c)

/-- Parse a raw path string into (is-absolute, components). -/
def parseArgPath (s : List Char) : Bool × List PComp :=
  match s with
  | '/' :: rest => (true, (splitSlash rest).filterMap toPComp)
  | _ => (false, (splitSlash s).filterMap toPComp)

/-- `PathBuf::pop` on the accumulator built during normalization: removes the
last component unless only the root is left. -/
def popPath (acc : List PComp) : List PComp :=
  match acc.getLast? with
  | some PComp.rootDir => acc
  | some _ => acc.dropLast
  | none => acc

/-- One step of the normalization loop in `file_utils::normalize`: skip `.`,
pop on `..`, push everything else. -/
def normPush (acc : List PComp) : PComp → List PComp
  | PComp.curDir => acc
  | PComp.parentDir => popPath acc
  | c => acc ++ [c]

/-- `file_utils::normalize`: join a (possibly relative) path string onto the
current working directory and eliminate `.` and `..` components.  `cwd` is
the absolute current directory as reported by the host; its components are
re-classified exactly as Rust's component iterator would when walking the
joined path. -/
def normalize (cwd : Path) (s : List Char) : List PComp :=
  let ap := parseArgPath s
  List.foldl normPush []
    (PComp.rootDir :: (if ap.1 then ap.2 else cwd.filterMap toPComp ++ ap.2))

/-- Forget the component classification, keeping the normal components. -/
def pathOfN (l : List PComp) : Path :=
  l.filterMap (fun c => match c with | PComp.normal s => some s | _ => none)

/-- The normalized absolute path of an argument, as a component list. -/
def normalizePath (cwd : Path) (s : List Char) : Path := pathOfN (normalize cwd s)

/-- The loop of `file_utils::find_dir_up`: Rust iterates once per component of
the starting path (the root component included, hence fuel `length + 1`),
keeps a seen-set against cycles, returns the marker directory as soon as it
exists, aborts on the stop directory, and pops one parent per round. -/
def findLoop (isDir : Path → Bool) (dir : List Char) (stop : Option (List Char)) :
    Nat → List Path → Path → Option Path
  | 0, _, _ => none
  | fuel + 1, seen, root =>
    if root ∈ seen then none
    else if isDir (root ++ [dir]) then some (root ++ [dir])
    else if (match stop with | some s => isDir (root ++ [s]) | none => false) then none
    else if root = [] then none
    else findLoop isDir dir stop fuel (root :: seen) root.dropLast

/-- `file_utils::find_dir_up`. -/
def find_dir_up (isDir : Path → Bool) (pth : Path) (dir : List Char)
    (stop : Option (List Char)) : Option Path :=
  findLoop isDir dir stop (pth.length + 1) [] pth

/-- Lowercase hexadecimal digit for a value below 16. -/
def hexDigitChar (n : Nat) : Char :=
  if n < 10 then Char.ofNat (48 + n) else Char.ofNat (87 + n)

/-- `string_utils::hex`: each byte becomes exactly two lowercase hex digits
(Rust's `{:02x}` on a `u8`). -/
def hex (input : List Nat) : List Char :=
  input.flatMap (fun b => [hexDigitChar (b / 16), hexDigitChar (b % 16)])

/-- Value of one lowercase hex digit. -/
def fromHexDigit (c : Char) : Nat :=
  if c.toNat ≤ 57 then c.toNat - 48 else c.toNat - 87

/-- Decode consecutive pairs of hex digits back to bytes. -/
def decodeHex : List Char → List Nat
  | a :: b :: rest => (16 * fromHexDigit a + fromHexDigit b) :: decodeHex rest
  | _ => []

/-- The character is one of 0-9, a-f. -/
def isLowerHexDigit (c : Char) : Bool :=
  (48 ≤ c.toNat && c.toNat ≤ 57) || (97 ≤ c.toNat && c.toNat ≤ 102)

/-- Minimal-width lowercase hex of a natural number below 256. -/
def hexMin (n : Nat) : List Char :=
  if n < 16 then [hexDigitChar n] else [hexDigitChar (n / 16), hexDigitChar (n % 16)]

/-- UTF-8 bytes of one scalar value (`str::as_bytes`, per character). -/
def utf8Bytes1 (c : Char) : List Nat :=
  let n := c.toNat
  if n < 128 then [n]
  else if n < 2048 then [192 + n / 64, 128 + n % 64]
  else if n < 65536 then [224 + n / 4096, 128 + n / 64 % 64, 128 + n % 64]
  else [240 + n / 262144, 128 + n / 4096 % 64, 128 + n / 64 % 64, 128 + n % 64]

/-- UTF-8 byte sequence of a string (`str::as_bytes`). -/
def utf8Encode (s : List Char) : List Nat := s.flatMap utf8Bytes1

/-- Escape of one character under Rust's `Debug` formatting of a string
(`char::escape_debug` as used by `{:?}` on a `Path`): quote, backslash, the
named control escapes, a `\u` escape for the remaining control characters
and DEL.  Characters from 0x80 up are kept verbatim here (Rust would also
`\u`-escape the non-printable ones among them; no theorem below evaluates
this function on such a character). -/
def escapeChar (c : Char) : List Char :=
  if c = '"' then ['\\', '"']
  else if c = '\\' then ['\\', '\\']
  else if c = '\n' then ['\\', 'n']
  else if c = '\r' then ['\\', 'r']
  else if c = '\t' then ['\\', 't']
  else if c = '\x00' then ['\\', '0']
  else if c.toNat < 32 ∨ c.toNat = 127 then
    '\\' :: 'u' :: '\x7b' :: (hexMin c.toNat ++ ['\x7d'])
  else [c]

/-- Rust `{:?}` (Debug) rendering of a path's string form: quoted, escaped. -/
def dbgStr (s : List Char) : List Char := '"' :: (s.flatMap escapeChar ++ ['"'])

/-- Display form of a path relative to its parent (`Path::display` of the
`strip_prefix` remainder): components joined by slashes, no leading slash. -/
def relDisplay : Path → List Char
  | [] => []
  | [c] => c
  | c :: d :: rest => c ++ '/' :: relDisplay (d :: rest)

/-- Display / `to_string_lossy` form of an absolute path. -/
def display (p : Path) : List Char := '/' :: relDisplay p

/-- The fixed marker directory name `.devcontainer`. -/
def dcDirS : List Char := ".devcontainer".data

/-- The fixed configuration file name `devcontainer.json`. -/
def configFileS : List Char := "devcontainer.json".data

/-- The fixed stop directory name `.git`. -/
def gitDirS : List Char := ".git".data

/-- Parsed configuration record (`DevContainer` in main.rs). -/
structure DevContainer where
  name : Option (List Char)
  workspace_folder : Option (List Char)
deriving DecidableEq

/-- A configuration file together with its parse (`JsonResults`). -/
structure JsonResults where
  file_name : Path
  dev_container : DevContainer
deriving DecidableEq

/-- Resolved marker-directory data (`DirProperties`). -/
structure DirProperties where
  hex : List Char
  folder : List Char
deriving DecidableEq

/-- The ambient host: filesystem queries, directory listing, file reading,
the external JSON-with-comments parser, the external interactive chooser
(returning an index into the candidate list, `none` on failure), and the
current working directory.  These are the collaborators the spec treats as
external interfaces. -/
structure Env where
  isDir : Path → Bool
  isFile : Path → Bool
  readDir : Path → List Path
  readFile : Path → Option (List Char)
  parse : List Char → Option DevContainer
  choose : List JsonResults → Option Nat
  cwd : Path

/-- main.rs `container_id`: the plain string form of the project root for the
default configuration location, otherwise the exact pseudo-JSON identifier
(paths rendered with Debug formatting, the `external` field with
`to_string_lossy`). -/
def container_id (root chosen : Path) : List Char :=
  if chosen = root ++ [dcDirS, configFileS] then display root
  else
    "\x7b\"hostPath\":".data ++
      (dbgStr (display root) ++
        (",\"localDocker\":false,\"settings\":\x7b\"context\":\"desktop-linux\"\x7d,\"configFile\":\x7b\"$mid\":1,\"fsPath\":".data ++
          (dbgStr (display chosen) ++
            (",\"external\":\"file://".data ++
              (display chosen ++
                ("\",\"path\":".data ++
                  (dbgStr (display chosen) ++
                    ",\"scheme\":\"file\"\x7d\x7d".data)))))))

/-- file_utils `files_matching`: the marker directory itself plus each of its
immediate subdirectories, keeping those that contain `file_name` directly. -/
def files_matching (env : Env) (dir : Path) (file_name : List Char) : List Path :=
  if env.isDir dir then
    (dir :: (env.readDir dir).filter env.isDir).filterMap
      (fun f => if env.isFile (f ++ [file_name]) then some (f ++ [file_name]) else none)
  else []

/-- main.rs `read_json`: reading the file or parsing its content may panic
(`none`); otherwise the record is paired with its path. -/
def read_json (env : Env) (file_name : Path) : Option JsonResults :=
  match env.readFile file_name with
  | none => none
  | some fdata =>
    match env.parse fdata with
    | none => none
    | some dev_container => some ⟨file_name, dev_container⟩

/-- Effectful map over a list in which any element may panic (Rust
`iterator.map(f).collect()` with a panicking `f`). -/
def mapPanic {α β : Type} (f : α → Option β) : List α → Option (List β)
  | [] => some []
  | a :: l =>
    match f a, mapPanic f l with
    | some b, some bs => some (b :: bs)
    | _, _ => none

/-- Last path segment of the project root (`root.iter().next_back()`; the
root path `/` yields its own component `/`). -/
def lastSegment (p : Path) : List Char := (p.getLast?).getD "/".data

/-- The tail of `dir_properties` once a configuration is chosen: drop the
marker component, build and hex-encode the identifier, and resolve the
workspace folder (explicit, or `/workspaces/<last segment>`). -/
def mkDirProps (root : Path) (chosen : JsonResults) : DirProperties :=
  ⟨hex (utf8Encode (container_id root.dropLast chosen.file_name)),
   chosen.dev_container.workspace_folder.getD
     ("/workspaces/".data ++ lastSegment root.dropLast)⟩

/-- main.rs `dir_properties`: discover configuration files, pick one
(automatically, or through the external chooser), and build the URI
ingredients.  Outer `none` is a panic, `some none` is "no configuration
found" (the rewrite degrades to a pass-through). -/
def dir_properties (env : Env) (root : Path) : Option (Option DirProperties) :=
  match mapPanic (read_json env) (files_matching env root configFileS) with
  | none => none
  | some [] => some none
  | some [m] => some (some (mkDirProps root m))
  | some (m1 :: m2 :: rest) =>
    match env.choose (m1 :: m2 :: rest) with
    | none => none
    | some i =>
      match (m1 :: m2 :: rest).get? i with
      | none => none
      | some m => some (some (mkDirProps root m))

/-- The per-run resolution cache keyed by marker directory (`BTreeMap`). -/
abbrev Cache := List (Path × Option DirProperties)

/-- Cache lookup (`BTreeMap::entry` hit). -/
def lookupCache (root : Path) : Cache → Option (Option DirProperties)
  | [] => none
  | (k, v) :: rest => if k = root then some v else lookupCache root rest

/-- The string contains an embedded NUL, on which `CString::new` (and hence
`to_cstring` and the URI encoding) panics. -/
def hasNul (s : List Char) : Bool := s.contains '\x00'

/-- A shell argument: its characters plus whether it is valid UTF-8. -/
structure OsStr where
  chars : List Char
  valid : Bool
deriving DecidableEq

/-- Build a valid-UTF-8 argument from a string literal. -/
def mkOs (s : String) : OsStr := ⟨s.data, true⟩

/-- `OsStr::to_str`: the text when valid, otherwise nothing. -/
def osToStr (a : OsStr) : Option (List Char) := if a.valid then some a.chars else none

/-- string_utils `to_cstring`: panics (`none`) on an embedded NUL. -/
def to_cstring (a : OsStr) : Option (List Char) :=
  if hasNul a.chars then none else some a.chars

/-- The rewritten flag text produced in `to_devcontainer_uri`:
`--folder-uri=` for a directory, `--file-uri=` otherwise, then the
hex identifier, the in-container workspace folder, and the candidate path
relative to the project root. -/
def uriString (isDir : Path → Bool) (pth : Path) (props : DirProperties)
    (parent : Path) : List Char :=
  "--".data ++
    ((if isDir pth then "folder".data else "file".data) ++
      ("-uri=vscode-remote://dev-container+".data ++
        (props.hex ++ (props.folder ++ ('/' :: relDisplay (pth.drop parent.length))))))

/-- The tail of `to_devcontainer_uri` after the cache step: with resolved
properties, strip the project root off the candidate (panic if impossible)
and encode the rewritten flag (panic on NUL); with no usable configuration,
fall back to the original argument. -/
def finishUri (isDir : Path → Bool) (arg : OsStr) (pth root : Path)
    (v : Option DirProperties) (cache : Cache) : Option (Cache × List Char) :=
  match v with
  | some props =>
    if isPre root.dropLast pth then
      if hasNul (uriString isDir pth props root.dropLast) then none
      else some (cache, uriString isDir pth props root.dropLast)
    else none
  | none =>
    match to_cstring arg with
    | none => none
    | some c => some (cache, c)

/-- main.rs `to_devcontainer_uri`: normalize the argument, search upward for
the marker directory (stopping at `.git`), resolve its configuration at most
once through the cache, and rewrite the argument or pass it through. -/
def to_devcontainer_uri (env : Env) (arg : OsStr) (dir : List Char)
    (cache : Cache) : Option (Cache × List Char) :=
  let pth := normalizePath env.cwd arg.chars
  match find_dir_up env.isDir pth dir (some gitDirS) with
  | some root =>
    match lookupCache root cache with
    | some v => finishUri env.isDir arg pth root v cache
    | none =>
      match dir_properties env root with
      | none => none
      | some v => finishUri env.isDir arg pth root v ((root, v) :: cache)
  | none =>
    match to_cstring arg with
    | none => none
    | some c => some (cache, c)

/-- The static PARAM_SIZE flag-arity table of main.rs. -/
def paramSizeTable : List (List Char × Nat) :=
  [("--add-mcp".data, 1), ("--add".data, 1), ("--category".data, 1), ("--diff".data, 2),
   ("--disable-extension".data, 1), ("--enable-proposed-api".data, 1),
   ("--extensions-dir".data, 1), ("--goto".data, 1), ("--inspect-brk-extensions".data, 1),
   ("--inspect-extensions".data, 1), ("--install-extension".data, 1), ("--locale".data, 1),
   ("--locate-shell-integration-path".data, 1), ("--log".data, 1), ("--merge".data, 4),
   ("--profile".data, 1), ("--remove".data, 1), ("--sync".data, 1),
   ("--uninstall-extension".data, 1), ("--user-data-dir".data, 1),
   ("-a".data, 1), ("-d".data, 2), ("-g".data, 1), ("-m".data, 4)]

/-- Association-list lookup backing the arity table. -/
def lookupNat (s : List Char) : List (List Char × Nat) → Option Nat
  | [] => none
  | (k, v) :: rest => if k = s then some v else lookupNat s rest

/-- `PARAM_SIZE.get`. -/
def paramSize (s : List Char) : Option Nat := lookupNat s paramSizeTable

/-- The static TERMINAL_PARAM sentinel set of main.rs. -/
def terminalParam (s : List Char) : Bool :=
  decide (s = "--".data ∨ s = "chat".data ∨ s = "serve-web".data ∨ s = "tunnel".data)

/-- `starts_with("--")`. -/
def startsDashDash (s : List Char) : Bool := isPre "--".data s

/-- `starts_with("-")`. -/
def startsDash (s : List Char) : Bool := isPre "-".data s

/-- The argument reaches the path-candidate branch of the classifier:
invalid UTF-8, or valid text matching no flag rule. -/
def pathCandidate (a : OsStr) : Bool :=
  match osToStr a with
  | none => true
  | some b =>
    (paramSize b).isNone && !terminalParam b && !startsDashDash b && !startsDash b

/-- The while-let loop of `process_args` over the arguments after the program
name: known flags forward their declared number of follow-on values
unchanged, a terminal sentinel forwards everything left and stops, other
dash arguments pass through, and everything else is a path candidate routed
through `to_devcontainer_uri` with the shared cache. -/
def argLoop (env : Env) : Cache → List OsStr → Option (List (List Char))
  | _, [] => some []
  | cache, a :: rest =>
    match osToStr a with
    | some b =>
      match paramSize b with
      | some sz =>
        match to_cstring a, mapPanic to_cstring (rest.take sz),
              argLoop env cache (rest.drop sz) with
        | some c, some vs, some out => some (c :: (vs ++ out))
        | _, _, _ => none
      | none =>
        if terminalParam b then
          match to_cstring a, mapPanic to_cstring rest with
          | some c, some vs => some (c :: vs)
          | _, _ => none
        else if startsDashDash b then
          match to_cstring a, argLoop env cache rest with
          | some c, some out => some (c :: out)
          | _, _ => none
        else if startsDash b then
          match to_cstring a, argLoop env cache rest with
          | some c, some out => some (c :: out)
          | _, _ => none
        else
          match to_devcontainer_uri env a dcDirS cache with
          | none => none
          | some (cache2, u) =>
            match argLoop env cache2 rest with
            | none => none
            | some out => some (u :: out)
    | none =>
      match to_devcontainer_uri env a dcDirS cache with
      | none => none
      | some (cache2, u) =>
        match argLoop env cache2 rest with
        | none => none
        | some out => some (u :: out)
termination_by _ l => l.length
decreasing_by
  all_goals simp only [List.length_drop, List.length_cons]
  all_goals omega

/-- main.rs `process_args`: append an implicit `.` when only the program name
was given, emit the target binary name as argument 0, and classify the rest. -/
def process_args (env : Env) (args : List OsStr) : Option (List (List Char)) :=
  let args' := if args.length = 1 then args ++ [mkOs "."] else args
  match args' with
  | [] => none
  | _ :: rest =>
    match argLoop env [] rest with
    | none => none
    | some out => some ("code".data :: out)

/-- Number of (possibly overlapping) occurrences of `needle` in `hay`. -/
def countSubstr (needle : List Char) : List Char → Nat
  | [] => if isPre needle [] then 1 else 0
  | c :: rest => (if isPre needle (c :: rest) then 1 else 0) + countSubstr needle rest

/-- A printable ASCII character that Debug formatting leaves untouched. -/
def plainChar (c : Char) : Bool :=
  decide (32 ≤ c.toNat ∧ c.toNat < 127 ∧ c ≠ '"' ∧ c ≠ '\\')

/-- A host with nothing on disk, used to instantiate general theorems. -/
def env0 : Env :=
  ⟨fun _ => false, fun _ => false, fun _ => [], fun _ => none,
   fun _ => none, fun _ => none, []⟩

/-- A host whose working directory `/p` is a project root: `/p/.devcontainer`
exists and holds a single parseable `devcontainer.json`. -/
def envC : Env :=
  { isDir := fun p => decide (p = ["p".data] ∨ p = ["p".data, dcDirS])
    isFile := fun p => decide (p = ["p".data, dcDirS, configFileS])
    readDir := fun _ => []
    readFile := fun p => if p = ["p".data, dcDirS, configFileS] then some "x".data else none
    parse := fun _ => some ⟨none, none⟩
    choose := fun _ => none
    cwd := ["p".data] }

/-- A host rooted at `/` whose marker directory `/.devcontainer` exists but
contains no configuration file. -/
def envE : Env :=
  { isDir := fun p => decide (p = [dcDirS])
    isFile := fun _ => false
    readDir := fun _ => []
    readFile := fun _ => none
    parse := fun _ => none
    choose := fun _ => none
    cwd := [] }

/-- A host like `envE` but where the configuration file exists and reading it
always fails. -/
def envF : Env :=
  { isDir := fun p => decide (p = [dcDirS])
    isFile := fun p => decide (p = [dcDirS, configFileS])
    readDir := fun _ => []
    readFile := fun _ => none
    parse := fun _ => none
    choose := fun _ => none
    cwd := [] }

/- ------------------------------------------------------------------ -/
/- Theorems.                                                           -/
/- ------------------------------------------------------------------ -/

theorem getLast?_mem_of_eq {α : Type} : ∀ (l : List α) (a : α), l.getLast? = some a → a ∈ l
  | [], a, h => by simp at h
  | [x], a, h => by
    simp [List.getLast?] at h
    simp [h]
  | x :: y :: t, a, h => by
    have h2 : (y :: t).getLast? = some a := by
      simpa [List.getLast?_cons_cons] using h
    exact List.mem_cons_of_mem _ (getLast?_mem_of_eq (y :: t) a h2)

theorem dropLast_cons_cons {α : Type} (x y : α) (t : List α) :
    (x :: y :: t).dropLast = x :: (y :: t).dropLast := rfl

theorem mem_dropLast_mem {α : Type} : ∀ (l : List α) (a : α), a ∈ l.dropLast → a ∈ l
  | [], a, h => by simp [List.dropLast] at h
  | [x], a, h => by simp [List.dropLast] at h
  | x :: y :: t, a, h => by
    rw [dropLast_cons_cons] at h
    rcases List.mem_cons.mp h with h | h
    · simp [h]
    · exact List.mem_cons_of_mem _ (mem_dropLast_mem (y :: t) a h)

theorem isPre_append_self {α : Type} [DecidableEq α] :
    ∀ (p t : List α), isPre p (p ++ t) = true
  | [], _ => rfl
  | a :: as, t => by
    simp only [List.cons_append, isPre, if_pos rfl]
    exact isPre_append_self as t

theorem isPre_of_eq_append {α : Type} [DecidableEq α] {m p t : List α}
    (h : m = p ++ t) : isPre p m = true := h ▸ isPre_append_self p t

theorem isPre_exists_append {α : Type} [DecidableEq α] :
    ∀ {p m : List α}, isPre p m = true → ∃ t, m = p ++ t
  | [], m, _ => ⟨m, rfl⟩
  | a :: as, [], h => by simp [isPre] at h
  | a :: as, b :: bs, h => by
    by_cases hab : a = b
    · subst hab
      simp only [isPre, if_pos rfl] at h
      obtain ⟨t, ht⟩ := isPre_exists_append h
      exact ⟨t, by rw [List.cons_append, ht]⟩
    · simp [isPre, hab] at h

theorem findLoop_succ (isDir : Path → Bool) (dir : List Char) (stop : Option (List Char))
    (fuel : Nat) (seen : List Path) (root : Path) :
    findLoop isDir dir stop (fuel + 1) seen root =
      (if root ∈ seen then none
       else if isDir (root ++ [dir]) then some (root ++ [dir])
       else if (match stop with | some s => isDir (root ++ [s]) | none => false) then none
       else if root = [] then none
       else findLoop isDir dir stop fuel (root :: seen) root.dropLast) := rfl

/- Lemmas about hex (string_utils.rs). -/

theorem hexDigit_ok : ∀ n < 16,
    isLowerHexDigit (hexDigitChar n) = true ∧ fromHexDigit (hexDigitChar n) = n := by decide

theorem hex_cons (b : Nat) (B : List Nat) :
    hex (b :: B) = hexDigitChar (b / 16) :: hexDigitChar (b % 16) :: hex B := rfl

theorem hex_decode (B : List Nat) (hB : ∀ b ∈ B, b < 256) : decodeHex (hex B) = B := by
  induction B with
  | nil => rfl
  | cons b B ih =>
    have hb : b < 256 := hB b (List.mem_cons_self _ _)
    rw [hex_cons, decodeHex, (hexDigit_ok _ (by omega)).2, (hexDigit_ok _ (by omega)).2,
      ih (fun x hx => hB x (List.mem_cons_of_mem _ hx))]
    congr 1
    omega

theorem hex_len (B : List Nat) : (hex B).length = 2 * B.length := by
  induction B with
  | nil => rfl
  | cons b B ih => rw [hex_cons]; simp [ih]; omega

theorem hex_digits (B : List Nat) (hB : ∀ b ∈ B, b < 256) :
    ∀ c ∈ hex B, isLowerHexDigit c = true := by
  intro c hc
  simp only [hex, List.mem_flatMap] at hc
  obtain ⟨b, hb, hcb⟩ := hc
  have h256 := hB b hb
  rcases List.mem_cons.mp hcb with rfl | hcb2
  · exact (hexDigit_ok _ (by omega)).1
  · rcases List.mem_cons.mp hcb2 with rfl | hcb3
    · exact (hexDigit_ok _ (by omega)).1
    · simp at hcb3

/-- C5: for every byte sequence, `hex` yields `2 * len` lowercase hex digits,
decoding pairs of digits recovers the bytes exactly, and `hex` is injective
(hence left-invertible) on byte sequences. -/
theorem hex_spec (B : List Nat) (hB : ∀ b ∈ B, b < 256) :
    (hex B).length = 2 * B.length ∧
    (∀ c ∈ hex B, isLowerHexDigit c = true) ∧
    decodeHex (hex B) = B ∧
    (∀ B2, (∀ b ∈ B2, b < 256) → hex B = hex B2 → B = B2) := by
  refine ⟨hex_len B, hex_digits B hB, hex_decode B hB, ?_⟩
  intro B2 hB2 he
  rw [← hex_decode B hB, ← hex_decode B2 hB2, he]

/-- C5 witness: the properties evaluated on the concrete bytes 01 7f ff. -/
theorem hex_spec_witness :
    (hex [1, 127, 255]).length = 6 ∧ decodeHex (hex [1, 127, 255]) = [1, 127, 255] := by
  have h := hex_spec [1, 127, 255] (by decide)
  exact ⟨h.1, h.2.2.1⟩

/-- C10: the upward marker search tests the candidate path itself first: if
`P/D` is a directory, `find_dir_up` returns it immediately, for every stop
option — in particular even when the stop directory is present at the same
level. -/
theorem find_dir_up_first_level (isDir : Path → Bool) (pth : Path) (d : List Char)
    (stop : Option (List Char)) (h : isDir (pth ++ [d]) = true) :
    find_dir_up isDir pth d stop = some (pth ++ [d]) := by
  show findLoop isDir d stop (pth.length + 1) [] pth = some (pth ++ [d])
  rw [findLoop_succ]
  simp [h]

/-- C10 witness: a filesystem where the marker and the stop directory are
both present directly under the searched path; the marker wins. -/
theorem find_dir_up_first_level_witness :
    find_dir_up (fun p => decide (p = [dcDirS] ∨ p = [gitDirS])) [] dcDirS
      (some gitDirS) = some [dcDirS] :=
  find_dir_up_first_level _ [] dcDirS (some gitDirS) (by decide)

/- Lemmas about normalize (file_utils.rs). -/

theorem toPComp_not_root {x : List Char} {c : PComp} (h : toPComp x = some c) :
    c ≠ PComp.rootDir := by
  by_cases h1 : x = [] <;> by_cases h2 : x = ['.'] <;> by_cases h3 : x = ['.', '.'] <;>
    simp [toPComp, h1, h2, h3] at h <;> simp [← h]

theorem filterMap_toPComp_not_root (l : List (List Char)) :
    ∀ c ∈ l.filterMap toPComp, c ≠ PComp.rootDir := by
  intro c hc
  obtain ⟨x, _, hx⟩ := List.mem_filterMap.mp hc
  exact toPComp_not_root hx

theorem parseArgPath_not_root (s : List Char) :
    ∀ c ∈ (parseArgPath s).2, c ≠ PComp.rootDir := by
  unfold parseArgPath
  split
  · exact filterMap_toPComp_not_root _
  · exact filterMap_toPComp_not_root _

theorem foldl_normPush_inv :
    ∀ (l : List PComp), (∀ c ∈ l, c ≠ PComp.rootDir) →
    ∀ (t : List PComp),
      (∀ c ∈ t, c ≠ PComp.curDir ∧ c ≠ PComp.parentDir ∧ c ≠ PComp.rootDir) →
    ∃ t2, List.foldl normPush (PComp.rootDir :: t) l = PComp.rootDir :: t2 ∧
      (∀ c ∈ t2, c ≠ PComp.curDir ∧ c ≠ PComp.parentDir ∧ c ≠ PComp.rootDir) := by
  intro l
  induction l with
  | nil => exact fun _ t ht => ⟨t, rfl, ht⟩
  | cons c l ih =>
    intro hl t ht
    have hl' : ∀ x ∈ l, x ≠ PComp.rootDir := fun x hx => hl x (List.mem_cons_of_mem _ hx)
    rw [List.foldl_cons]
    cases c with
    | rootDir => exact absurd rfl (hl _ (List.mem_cons_self _ _))
    | curDir => exact ih hl' t ht
    | parentDir =>
      show ∃ t2, List.foldl normPush (popPath (PComp.rootDir :: t)) l = _ ∧ _
      cases t with
      | nil => exact ih hl' [] (by simp)
      | cons x ts =>
        have hne : x :: ts ≠ [] := by simp
        have hlast : (PComp.rootDir :: x :: ts).getLast? = some ((x :: ts).getLast hne) := by
          rw [List.getLast?_cons_cons, List.getLast?_eq_getLast _ hne]
        have hmem : (x :: ts).getLast hne ∈ x :: ts := List.getLast_mem hne
        have hpop : popPath (PComp.rootDir :: x :: ts) = PComp.rootDir :: (x :: ts).dropLast := by
          rw [popPath, hlast]
          have : (x :: ts).getLast hne ≠ PComp.rootDir := (ht _ hmem).2.2
          cases h : (x :: ts).getLast hne with
          | rootDir => exact absurd h this
          | curDir => exact dropLast_cons_cons _ _ _
          | parentDir => exact dropLast_cons_cons _ _ _
          | normal s => exact dropLast_cons_cons _ _ _
        rw [hpop]
        exact ih hl' (x :: ts).dropLast (fun c hc => ht c (mem_dropLast_mem _ _ hc))
    | normal s =>
      show ∃ t2, List.foldl normPush ((PComp.rootDir :: t) ++ [PComp.normal s]) l = _ ∧ _
      have : (PComp.rootDir :: t) ++ [PComp.normal s] =
          PComp.rootDir :: (t ++ [PComp.normal s]) := rfl
      rw [this]
      refine ih hl' (t ++ [PComp.normal s]) ?_
      intro c hc
      rcases List.mem_append.mp hc with h | h
      · exact ht c h
      · simp at h
        simp [h]

/-- C4: for every working directory and input path string, the normalized
path starts at the filesystem root (it is absolute) and contains no `.` and
no `..` components; and a `..` met while only the root is retained is simply
discarded (it never climbs above the root). -/
theorem normalize_spec (cwd : Path) (s : List Char) :
    (∃ rest, normalize cwd s = PComp.rootDir :: rest) ∧
    (∀ c ∈ normalize cwd s, c ≠ PComp.curDir ∧ c ≠ PComp.parentDir) ∧
    (∀ cs : List PComp,
      List.foldl normPush [PComp.rootDir] (PComp.parentDir :: cs) =
        List.foldl normPush [PComp.rootDir] cs) := by
  have hnr : ∀ c ∈ (if (parseArgPath s).1 then (parseArgPath s).2
      else cwd.filterMap toPComp ++ (parseArgPath s).2), c ≠ PComp.rootDir := by
    intro c hc
    by_cases hb : (parseArgPath s).1
    · rw [if_pos hb] at hc
      exact parseArgPath_not_root s c hc
    · rw [if_neg hb] at hc
      rcases List.mem_append.mp hc with h | h
      · exact filterMap_toPComp_not_root cwd c h
      · exact parseArgPath_not_root s c h
  have hmain : ∃ t2, normalize cwd s = PComp.rootDir :: t2 ∧
      (∀ c ∈ t2, c ≠ PComp.curDir ∧ c ≠ PComp.parentDir ∧ c ≠ PComp.rootDir) := by
    rw [normalize]
    show ∃ t2, List.foldl normPush []
      (PComp.rootDir :: (if (parseArgPath s).1 then (parseArgPath s).2
        else cwd.filterMap toPComp ++ (parseArgPath s).2)) = _ ∧ _
    rw [List.foldl_cons]
    show ∃ t2, List.foldl normPush (PComp.rootDir :: []) _ = _ ∧ _
    exact foldl_normPush_inv _ hnr [] (by simp)
  obtain ⟨t2, heq, ht2⟩ := hmain
  refine ⟨⟨t2, heq⟩, ?_, fun cs => rfl⟩
  intro c hc
  rw [heq] at hc
  rcases List.mem_cons.mp hc with rfl | h
  · exact ⟨by simp, by simp⟩
  · exact ⟨(ht2 c h).1, (ht2 c h).2.1⟩

/- Lemmas about the argument classifier (main.rs process_args). -/

theorem tp_not_arity {b : List Char} (h : terminalParam b = true) : paramSize b = none := by
  rcases of_decide_eq_true h with h1 | h1 | h1 | h1 <;> subst h1 <;> decide

theorem to_cstring_eq {a : OsStr} (h : hasNul a.chars = false) :
    to_cstring a = some a.chars := by
  simp [to_cstring, h]

theorem mapPanic_chars : ∀ (l : List OsStr), (∀ x ∈ l, hasNul x.chars = false) →
    mapPanic to_cstring l = some (l.map OsStr.chars)
  | [], _ => rfl
  | a :: l, h => by
    rw [mapPanic, to_cstring_eq (h a (List.mem_cons_self _ _)),
      mapPanic_chars l (fun x hx => h x (List.mem_cons_of_mem _ hx))]
    rfl

theorem argLoop_nil (env : Env) (cache : Cache) : argLoop env cache [] = some [] := by
  rw [argLoop]

theorem argLoop_cons_sentinel (env : Env) (cache : Cache) (a : OsStr) (rest : List OsStr)
    (b : List Char) (h1 : osToStr a = some b) (h2 : terminalParam b = true) :
    argLoop env cache (a :: rest) =
      (match to_cstring a, mapPanic to_cstring rest with
       | some c, some vs => some (c :: vs)
       | _, _ => none) := by
  rw [argLoop]
  simp only [h1, tp_not_arity h2, h2, if_true]

/-- C2: in the normal state, an argument from the terminal sentinel set
(`--`, `chat`, `serve-web`, `tunnel`) makes that argument and every later
argument pass straight to C-string encoding, in order; the result does not
depend on the host environment or the cache, so nothing after the sentinel
is path-resolved or rewritten, and when the arguments are NUL-free they are
all emitted byte-for-byte unchanged. -/
theorem terminal_sentinel_passthrough (env : Env) (cache : Cache) (a : OsStr)
    (rest : List OsStr) (b : List Char) (h1 : osToStr a = some b)
    (h2 : terminalParam b = true) :
    argLoop env cache (a :: rest) =
      (to_cstring a).bind (fun c =>
        (mapPanic to_cstring rest).map (fun vs => c :: vs)) ∧
    (hasNul a.chars = false → (∀ x ∈ rest, hasNul x.chars = false) →
      argLoop env cache (a :: rest) = some (a.chars :: rest.map OsStr.chars)) := by
  have hstep := argLoop_cons_sentinel env cache a rest b h1 h2
  constructor
  · rw [hstep]
    cases to_cstring a <;> cases mapPanic to_cstring rest <;> rfl
  · intro ha hrest
    rw [hstep, to_cstring_eq ha, mapPanic_chars rest hrest]

/-- C2 witness: a concrete vector `-- x` on the empty host. -/
theorem terminal_sentinel_passthrough_witness :
    argLoop env0 [] [mkOs "--", mkOs "x"] = some ["--".data, "x".data] := by
  have h := (terminal_sentinel_passthrough env0 [] (mkOs "--") [mkOs "x"] "--".data
    rfl (by decide)).2 (by decide) (by decide)
  exact h

theorem argLoop_cons_arity (env : Env) (cache : Cache) (a : OsStr) (rest : List OsStr)
    (b : List Char) (n : Nat) (h1 : osToStr a = some b) (h2 : paramSize b = some n) :
    argLoop env cache (a :: rest) =
      (match to_cstring a, mapPanic to_cstring (rest.take n),
             argLoop env cache (rest.drop n) with
       | some c, some vs, some out => some (c :: (vs ++ out))
       | _, _, _ => none) := by
  rw [argLoop]
  simp only [h1, h2]

/-- C3: in the normal state, an argument found in the flag arity table with
count `n` is emitted unchanged followed by the next `min n |rest|` arguments,
all routed through plain C-string encoding — never through path resolution —
regardless of their shape; classification then resumes after them. -/
theorem flag_arity_passthrough (env : Env) (cache : Cache) (a : OsStr)
    (rest : List OsStr) (b : List Char) (n : Nat) (h1 : osToStr a = some b)
    (h2 : paramSize b = some n) :
    argLoop env cache (a :: rest) =
      (to_cstring a).bind (fun c =>
        (mapPanic to_cstring (rest.take n)).bind (fun vs =>
          (argLoop env cache (rest.drop n)).map (fun out => c :: (vs ++ out)))) ∧
    (rest.take n).length = min n rest.length ∧
    (hasNul a.chars = false → (∀ x ∈ rest.take n, hasNul x.chars = false) →
      ∀ out, argLoop env cache (rest.drop n) = some out →
        argLoop env cache (a :: rest) =
          some (a.chars :: ((rest.take n).map OsStr.chars ++ out))) := by
  have hstep := argLoop_cons_arity env cache a rest b n h1 h2
  refine ⟨?_, List.length_take n rest, ?_⟩
  · rw [hstep]
    cases to_cstring a <;> cases mapPanic to_cstring (rest.take n) <;>
      cases argLoop env cache (rest.drop n) <;> rfl
  · intro ha hvals out hout
    rw [hstep, to_cstring_eq ha, mapPanic_chars _ hvals, hout]

/-- C3 witness: `-d one two` (declared arity 2) passes both follow-on values
through unchanged on the empty host. -/
theorem flag_arity_passthrough_witness :
    argLoop env0 [] [mkOs "-d", mkOs "one", mkOs "two"] =
      some ["-d".data, "one".data, "two".data] := by
  have hnil : argLoop env0 [] (List.drop 2 [mkOs "one", mkOs "two"]) = some [] :=
    argLoop_nil env0 []
  have h := (flag_arity_passthrough env0 [] (mkOs "-d") [mkOs "one", mkOs "two"]
    "-d".data 2 rfl (by decide)).2.2 (by decide) (by decide) [] hnil
  exact h

theorem mapPanic_none_of_mem {α β : Type} (f : α → Option β) :
    ∀ (l : List α) (x : α), x ∈ l → f x = none → mapPanic f l = none
  | [], x, hx, _ => absurd hx (List.not_mem_nil x)
  | a :: l, x, hx, hfx => by
    rcases List.mem_cons.mp hx with rfl | h
    · rw [mapPanic, hfx]
    · rw [mapPanic, mapPanic_none_of_mem f l x h hfx]
      cases f a <;> rfl

/-- C9: a discovered configuration file whose read or parse fails makes the
run abort: `read_json` panics exactly when reading fails or parsing fails,
and such a failure on any discovered file propagates to a panic of the whole
resolution — it is never skipped and never becomes a pass-through. -/
theorem read_json_fatal (env : Env) (f : Path) :
    (read_json env f = none ↔
      env.readFile f = none ∨ ∃ d, env.readFile f = some d ∧ env.parse d = none) ∧
    (∀ root, f ∈ files_matching env root configFileS → read_json env f = none →
      dir_properties env root = none) := by
  constructor
  · rw [read_json]
    cases hr : env.readFile f with
    | none => simp
    | some d =>
      cases hp : env.parse d with
      | none => simp [hp]
      | some dc => simp [hp]
  · intro root hmem hnone
    simp only [dir_properties, mapPanic_none_of_mem _ _ f hmem hnone]

/-- C9 witness: a host where the configuration file exists but reading it
fails; resolution of the marker directory panics. -/
theorem read_json_fatal_witness : dir_properties envF [dcDirS] = none :=
  (read_json_fatal envF [dcDirS, configFileS]).2 [dcDirS] (by decide) (by decide)

/-- C8: a path candidate degrades to a pass-through when the upward search
finds no marker directory, or when the marker directory holds zero
configuration files; the emitted argument is the original argument (via
plain C-string encoding), and classification of the remaining arguments
proceeds normally. -/
theorem no_marker_passthrough (env : Env) (a : OsStr) (cache : Cache) :
    (find_dir_up env.isDir (normalizePath env.cwd a.chars) dcDirS (some gitDirS) = none →
      to_devcontainer_uri env a dcDirS cache =
        (to_cstring a).map (fun c => (cache, c))) ∧
    (∀ root,
      find_dir_up env.isDir (normalizePath env.cwd a.chars) dcDirS (some gitDirS) = some root →
      lookupCache root cache = none →
      files_matching env root configFileS = [] →
      to_devcontainer_uri env a dcDirS cache =
        (to_cstring a).map (fun c => ((root, none) :: cache, c))) ∧
    (∀ rest, pathCandidate a = true → hasNul a.chars = false →
      find_dir_up env.isDir (normalizePath env.cwd a.chars) dcDirS (some gitDirS) = none →
      argLoop env cache (a :: rest) = (argLoop env cache rest).map (fun out => a.chars :: out)) := by
  have conj1 : find_dir_up env.isDir (normalizePath env.cwd a.chars) dcDirS (some gitDirS) = none →
      to_devcontainer_uri env a dcDirS cache = (to_cstring a).map (fun c => (cache, c)) := by
    intro h
    simp only [to_devcontainer_uri, h]
    cases to_cstring a <;> rfl
  refine ⟨conj1, ?_, ?_⟩
  · intro root hf hlook hfiles
    have hdp : dir_properties env root = some none := by
      simp only [dir_properties, hfiles, mapPanic]
    simp only [to_devcontainer_uri, hf, hlook, hdp, finishUri]
    cases to_cstring a <;> rfl
  · intro rest hpc hnul hf
    have huri : to_devcontainer_uri env a dcDirS cache = some (cache, a.chars) := by
      rw [conj1 hf, to_cstring_eq hnul]
      rfl
    cases hos : osToStr a with
    | none =>
      rw [argLoop]
      simp only [hos, huri]
      cases argLoop env cache rest <;> rfl
    | some b =>
      simp only [pathCandidate, hos, Bool.and_eq_true, Bool.not_eq_true',
        Option.isNone_iff_eq_none] at hpc
      obtain ⟨⟨⟨hp1, hp2⟩, hp3⟩, hp4⟩ := hpc
      rw [argLoop]
      simp only [hos, hp1, hp2, hp3, hp4, if_false, Bool.false_eq_true, huri]
      cases argLoop env cache rest <;> rfl

/-- C8 witness: on a bare host the candidate `x` passes through unchanged
(no marker anywhere), and on a host whose marker directory is empty it also
passes through, with the "no configuration" result cached; classification
continues over the remaining arguments. -/
theorem no_marker_passthrough_witness :
    to_devcontainer_uri env0 (mkOs "x") dcDirS [] = some ([], "x".data) ∧
    to_devcontainer_uri envE (mkOs "x") dcDirS [] = some ([([dcDirS], none)], "x".data) ∧
    argLoop env0 [] [mkOs "x"] = some ["x".data] := by
  refine ⟨?_, ?_, ?_⟩
  · rw [(no_marker_passthrough env0 (mkOs "x") []).1 (by decide)]
    decide
  · rw [(no_marker_passthrough envE (mkOs "x") []).2.1 [dcDirS] (by decide) (by decide)
      (by decide)]
    decide
  · rw [(no_marker_passthrough env0 (mkOs "x") []).2.2 [] (by decide) (by decide) (by decide),
      argLoop_nil]
    rfl

theorem finishUri_fst {isDir : Path → Bool} {arg : OsStr} {pth root : Path}
    {v : Option DirProperties} {cache : Cache} {r : Cache × List Char}
    (h : finishUri isDir arg pth root v cache = some r) : r.1 = cache := by
  cases v with
  | some props =>
    simp only [finishUri] at h
    split_ifs at h with h1 h2
    rw [← Option.some_inj.mp h]
  | none =>
    simp only [finishUri] at h
    cases hc : to_cstring arg with
    | none => rw [hc] at h; simp at h
    | some c =>
      rw [hc] at h
      have h2 : some (cache, c) = some r := h
      rw [← Option.some_inj.mp h2]

/-- C6: the configuration of a marker directory is resolved at most once per
run.  First, a successful rewrite on a cache miss stores the
`dir_properties` result under the marker directory.  Second, on a cache hit
the rewrite is computed from the cached value alone: it coincides for every
host that merely agrees on the directory structure and working directory —
the discovery and interactive-choice collaborators are not consulted again —
and the cache is left unchanged. -/
theorem resolver_cached_once (env env' : Env) (a : OsStr) (root : Path)
    (hd : env'.isDir = env.isDir) (hc : env'.cwd = env.cwd)
    (hf : find_dir_up env.isDir (normalizePath env.cwd a.chars) dcDirS (some gitDirS) =
      some root) :
    (∀ cache r, lookupCache root cache = none →
      to_devcontainer_uri env a dcDirS cache = some r →
      ∃ v, dir_properties env root = some v ∧ r.1 = (root, v) :: cache) ∧
    (∀ cache v, lookupCache root cache = some v →
      to_devcontainer_uri env' a dcDirS cache =
        finishUri env.isDir a (normalizePath env.cwd a.chars) root v cache) := by
  constructor
  · intro cache r hlook hcall
    simp only [to_devcontainer_uri, hf, hlook] at hcall
    cases hdp : dir_properties env root with
    | none => rw [hdp] at hcall; simp at hcall
    | some v =>
      rw [hdp] at hcall
      exact ⟨v, rfl, finishUri_fst hcall⟩
  · intro cache v hlook
    simp only [to_devcontainer_uri, hd, hc, hf, hlook]

/-- C6 witness: on the concrete host `envC`, a first candidate under `/p`
stores the resolution in the cache, and with the cache pre-seeded the call
is answered from the cache (here: a cached "no configuration" passes the
argument through, cache untouched). -/
theorem resolver_cached_once_witness :
    (∃ v, dir_properties envC ["p".data, dcDirS] = some v ∧
      (([(["p".data, dcDirS], some ⟨"2f70".data, "/workspaces/p".data⟩)],
        "--file-uri=vscode-remote://dev-container+2f70/workspaces/p/x".data) :
          Cache × List Char).1 = (["p".data, dcDirS], v) :: []) ∧
    to_devcontainer_uri envC (mkOs "x") dcDirS [(["p".data, dcDirS], none)] =
      some ([(["p".data, dcDirS], none)], "x".data) := by
  constructor
  · exact (resolver_cached_once envC envC (mkOs "x") ["p".data, dcDirS] rfl rfl
      (by decide)).1 []
      ([(["p".data, dcDirS], some ⟨"2f70".data, "/workspaces/p".data⟩)],
        "--file-uri=vscode-remote://dev-container+2f70/workspaces/p/x".data)
      (by decide) (by decide)
  · rw [(resolver_cached_once envC envC (mkOs "x") ["p".data, dcDirS] rfl rfl
      (by decide)).2 [(["p".data, dcDirS], none)] none (by decide)]
    decide

/- Support for C7: the marker's parent found by the upward search lies on
the searched path, and normalizing the implicit `.` argument yields the
working directory. -/

theorem dropLast_append_one {α : Type} : ∀ (l : List α) (a : α), (l ++ [a]).dropLast = l
  | [], _ => rfl
  | [_], _ => rfl
  | x :: y :: t, a => by
    show (x :: y :: (t ++ [a])).dropLast = x :: y :: t
    rw [dropLast_cons_cons]
    exact congrArg (List.cons x) (dropLast_append_one (y :: t) a)

theorem findLoop_suffix (isDir : Path → Bool) (d : List Char) (st : Option (List Char)) :
    ∀ (fuel : Nat) (seen : List Path) (r res : Path),
      findLoop isDir d st fuel seen r = some res → ∃ q t, r = q ++ t ∧ res = q ++ [d]
  | 0, _, _, _, h => by simp [findLoop] at h
  | fuel + 1, seen, r, res, h => by
    rw [findLoop_succ] at h
    split_ifs at h with h1 h2 h3 h4
    · exact ⟨r, [], by simp, (Option.some_inj.mp h).symm⟩
    · obtain ⟨q, t, hqt, hres⟩ := findLoop_suffix isDir d st fuel (r :: seen) r.dropLast res h
      refine ⟨q, t ++ [r.getLast h4], ?_, hres⟩
      rw [← List.append_assoc, ← hqt]
      exact (List.dropLast_append_getLast h4).symm

theorem find_dir_up_parent {isDir : Path → Bool} {pth root : Path} {d : List Char}
    {st : Option (List Char)} (h : find_dir_up isDir pth d st = some root) :
    isPre root.dropLast pth = true := by
  obtain ⟨q, t, hqt, hres⟩ := findLoop_suffix isDir d st (pth.length + 1) [] pth root h
  rw [hres, dropLast_append_one]
  exact isPre_of_eq_append hqt

theorem foldl_normPush_normals :
    ∀ (l : List PComp), (∀ c ∈ l, ∃ s, c = PComp.normal s) →
      ∀ acc, List.foldl normPush acc l = acc ++ l
  | [], _, acc => by simp
  | c :: l, h, acc => by
    obtain ⟨s, rfl⟩ := h c (List.mem_cons_self _ _)
    rw [List.foldl_cons]
    show List.foldl normPush (acc ++ [PComp.normal s]) l = _
    rw [foldl_normPush_normals l (fun x hx => h x (List.mem_cons_of_mem _ hx))
      (acc ++ [PComp.normal s])]
    simp

theorem pathOfN_root_normals : ∀ (l : Path), pathOfN (PComp.rootDir :: l.map PComp.normal) = l
  | [] => rfl
  | c :: t => by
    have ih := pathOfN_root_normals t
    simp only [pathOfN, List.filterMap_cons, List.map_cons] at ih ⊢
    exact congrArg (List.cons c) ih

theorem normalizePath_dot (cwd : Path)
    (hg : ∀ c ∈ cwd, toPComp c = some (PComp.normal c)) :
    normalizePath cwd ".".data = cwd := by
  have h1 : parseArgPath ".".data = (false, [PComp.curDir]) := by decide
  have h2 : cwd.filterMap toPComp = cwd.map PComp.normal := by
    induction cwd with
    | nil => rfl
    | cons c t ih =>
      rw [List.filterMap_cons, hg c (List.mem_cons_self _ _),
        ih (fun x hx => hg x (List.mem_cons_of_mem _ hx)), List.map_cons]
  rw [normalizePath, normalize, h1]
  simp only []
  rw [h2, List.foldl_cons]
  show pathOfN (List.foldl normPush [PComp.rootDir]
    (cwd.map PComp.normal ++ [PComp.curDir])) = cwd
  rw [List.foldl_append,
    foldl_normPush_normals (cwd.map PComp.normal)
      (fun c hc => by
        obtain ⟨s, _, rfl⟩ := List.mem_map.mp hc
        exact ⟨s, rfl⟩) [PComp.rootDir]]
  show pathOfN (normPush (PComp.rootDir :: cwd.map PComp.normal) PComp.curDir) = cwd
  exact pathOfN_root_normals cwd

/-- C7: when only the program name is given, an implicit `.` candidate is
appended before scanning (the run coincides with an explicit trailing `.`),
and — the working directory being a directory inside a resolvable project —
the rewritten vector is exactly the target binary name plus one rewritten
argument in `--folder-uri=` form for the current directory. -/
theorem implicit_cwd_folder_uri (env : Env) (prog : OsStr) (root : Path)
    (props : DirProperties)
    (hgood : ∀ c ∈ env.cwd, toPComp c = some (PComp.normal c))
    (hdir : env.isDir env.cwd = true)
    (hf : find_dir_up env.isDir env.cwd dcDirS (some gitDirS) = some root)
    (hp : dir_properties env root = some (some props))
    (hnul : hasNul (uriString env.isDir env.cwd props root.dropLast) = false) :
    process_args env [prog] = process_args env [prog, mkOs "."] ∧
    process_args env [prog] =
      some ["code".data, uriString env.isDir env.cwd props root.dropLast] ∧
    isPre "--folder-uri=".data (uriString env.isDir env.cwd props root.dropLast) = true := by
  have hnorm : normalizePath env.cwd (mkOs ".").chars = env.cwd := normalizePath_dot env.cwd hgood
  have hpre : isPre root.dropLast env.cwd = true := find_dir_up_parent hf
  have huri : to_devcontainer_uri env (mkOs ".") dcDirS [] =
      some ([(root, some props)], uriString env.isDir env.cwd props root.dropLast) := by
    simp only [to_devcontainer_uri, hnorm, hf, lookupCache, hp, finishUri, hpre, if_true,
      hnul, Bool.false_eq_true, if_false]
  have hargs : argLoop env [] [mkOs "."] =
      some [uriString env.isDir env.cwd props root.dropLast] := by
    rw [argLoop]
    simp only [show osToStr (mkOs ".") = some ".".data from rfl,
      show paramSize ".".data = none from by decide,
      show terminalParam ".".data = false from by decide,
      show startsDashDash ".".data = false from by decide,
      show startsDash ".".data = false from by decide,
      Bool.false_eq_true, if_false, huri, argLoop_nil]
  refine ⟨rfl, ?_, ?_⟩
  · show (match argLoop env [] [mkOs "."] with
      | none => none
      | some out => some ("code".data :: out)) = _
    rw [hargs]
  · rw [uriString, hdir]
    simp only [if_true]
    generalize props.hex ++ (props.folder ++ ('/' :: relDisplay (env.cwd.drop root.dropLast.length))) = X
    have hsplit : "--".data ++ ("folder".data ++ ("-uri=vscode-remote://dev-container+".data ++ X)) =
        "--folder-uri=".data ++ ("vscode-remote://dev-container+".data ++ X) := by
      simp only [← List.append_assoc]
      exact congrArg (· ++ X) (by decide)
    exact isPre_of_eq_append hsplit

/-- C7 witness: the concrete host `envC` (working directory `/p`, one
configuration file): `cope` alone rewrites to a single folder URI. -/
theorem implicit_cwd_folder_uri_witness :
    process_args envC [mkOs "cope"] =
      some ["code".data,
        "--folder-uri=vscode-remote://dev-container+2f70/workspaces/p/".data] := by
  have h := implicit_cwd_folder_uri envC (mkOs "cope") ["p".data, dcDirS]
    ⟨"2f70".data, "/workspaces/p".data⟩ (by decide) (by decide) (by decide) (by decide)
    (by decide)
  rw [h.2.1]
  decide

/- Lemmas about container_id (main.rs) and substring counting. -/

theorem countSubstr_le_append (n : List Char) :
    ∀ (a rest : List Char), countSubstr n rest ≤ countSubstr n (a ++ rest)
  | [], _ => le_refl _
  | c :: a, rest => by
    rw [List.cons_append, countSubstr]
    exact (countSubstr_le_append n a rest).trans (Nat.le_add_left _ _)

theorem countSubstr_self_append (c : Char) (t b : List Char) :
    1 + countSubstr (c :: t) b ≤ countSubstr (c :: t) ((c :: t) ++ b) := by
  have hp : isPre (c :: t) (c :: (t ++ b)) = true := isPre_append_self (c :: t) b
  rw [List.cons_append, countSubstr, hp, if_pos rfl]
  exact Nat.add_le_add_left (countSubstr_le_append (c :: t) t b) 1

theorem countSubstr_three (n A B C2 D : List Char) (hn : ∃ c t, n = c :: t) :
    3 ≤ countSubstr n (A ++ (n ++ (B ++ (n ++ (C2 ++ (n ++ D)))))) := by
  obtain ⟨c, t, rfl⟩ := hn
  have s1 : 1 + countSubstr (c :: t) D ≤ countSubstr (c :: t) ((c :: t) ++ D) :=
    countSubstr_self_append c t D
  have s2 : countSubstr (c :: t) ((c :: t) ++ D) ≤
      countSubstr (c :: t) (C2 ++ ((c :: t) ++ D)) := countSubstr_le_append _ _ _
  have s3 : 1 + countSubstr (c :: t) (C2 ++ ((c :: t) ++ D)) ≤
      countSubstr (c :: t) ((c :: t) ++ (C2 ++ ((c :: t) ++ D))) :=
    countSubstr_self_append c t _
  have s4 : countSubstr (c :: t) ((c :: t) ++ (C2 ++ ((c :: t) ++ D))) ≤
      countSubstr (c :: t) (B ++ ((c :: t) ++ (C2 ++ ((c :: t) ++ D)))) :=
    countSubstr_le_append _ _ _
  have s5 : 1 + countSubstr (c :: t) (B ++ ((c :: t) ++ (C2 ++ ((c :: t) ++ D)))) ≤
      countSubstr (c :: t) ((c :: t) ++ (B ++ ((c :: t) ++ (C2 ++ ((c :: t) ++ D))))) :=
    countSubstr_self_append c t _
  have s6 : countSubstr (c :: t) ((c :: t) ++ (B ++ ((c :: t) ++ (C2 ++ ((c :: t) ++ D))))) ≤
      countSubstr (c :: t) (A ++ ((c :: t) ++ (B ++ ((c :: t) ++ (C2 ++ ((c :: t) ++ D)))))) :=
    countSubstr_le_append _ _ _
  omega

theorem escapeChar_plain {c : Char} (h : plainChar c = true) : escapeChar c = [c] := by
  obtain ⟨ha, hb, hc, hd⟩ := of_decide_eq_true h
  have e1 : c ≠ '\n' := by intro e; rw [e] at ha; exact absurd ha (by decide)
  have e2 : c ≠ '\r' := by intro e; rw [e] at ha; exact absurd ha (by decide)
  have e3 : c ≠ '\t' := by intro e; rw [e] at ha; exact absurd ha (by decide)
  have e4 : c ≠ '\x00' := by intro e; rw [e] at ha; exact absurd ha (by decide)
  have e5 : ¬(c.toNat < 32 ∨ c.toNat = 127) := by omega
  rw [escapeChar, if_neg hc, if_neg hd, if_neg e1, if_neg e2, if_neg e3, if_neg e4, if_neg e5]

theorem escape_plain_str (s : List Char) (h : ∀ c ∈ s, plainChar c = true) :
    s.flatMap escapeChar = s := by
  induction s with
  | nil => rfl
  | cons c t ih =>
    rw [List.flatMap_cons, escapeChar_plain (h c (List.mem_cons_self _ _)),
      ih (fun x hx => h x (List.mem_cons_of_mem _ hx))]
    rfl

theorem relDisplay_plain :
    ∀ (C : Path), (∀ comp ∈ C, ∀ ch ∈ comp, plainChar ch = true) →
      ∀ ch ∈ relDisplay C, plainChar ch = true
  | [], _, ch, h => by simp [relDisplay] at h
  | [c], hC, ch, h => hC c (List.mem_cons_self _ _) ch (by simpa [relDisplay] using h)
  | c :: d :: t, hC, ch, h => by
    rw [relDisplay] at h
    rcases List.mem_append.mp h with h1 | h1
    · exact hC c (List.mem_cons_self _ _) ch h1
    · rcases List.mem_cons.mp h1 with rfl | h2
      · decide
      · exact relDisplay_plain (d :: t)
          (fun comp hcm => hC comp (List.mem_cons_of_mem _ hcm)) ch h2

theorem display_plain (C : Path) (h : ∀ comp ∈ C, ∀ ch ∈ comp, plainChar ch = true) :
    ∀ ch ∈ display C, plainChar ch = true := by
  intro ch hch
  rw [display] at hch
  rcases List.mem_cons.mp hch with rfl | h2
  · decide
  · exact relDisplay_plain C h ch h2

theorem container_id_nondefault (R C : Path) (h : C ≠ R ++ [dcDirS, configFileS])
    (hplain : ∀ comp ∈ C, ∀ ch ∈ comp, plainChar ch = true) :
    ∃ A B C2 D, container_id R C =
      A ++ (display C ++ (B ++ (display C ++ (C2 ++ (display C ++ D))))) := by
  have hdbg : dbgStr (display C) = '"' :: (display C ++ ['"']) := by
    rw [dbgStr, escape_plain_str _ (display_plain C hplain)]
  refine ⟨"\x7b\"hostPath\":".data ++
      (dbgStr (display R) ++
        (",\"localDocker\":false,\"settings\":\x7b\"context\":\"desktop-linux\"\x7d,\"configFile\":\x7b\"$mid\":1,\"fsPath\":".data ++
          ['"'])),
    ['"'] ++ ",\"external\":\"file://".data,
    "\",\"path\":".data ++ ['"'],
    ['"'] ++ ",\"scheme\":\"file\"\x7d\x7d".data, ?_⟩
  rw [container_id, if_neg h, hdbg]
  simp [List.append_assoc]

/-- C1 counterexample: with project root `/r` and the non-default chosen
configuration file `/r/a"b` — whose name contains a double quote, which
Debug formatting escapes — the identifier contains the literal path of the
chosen file only once, not at least three times as claimed. -/
theorem container_id_counterexample :
    (["r".data, "a\"b".data] : Path) ≠ ["r".data] ++ [dcDirS, configFileS] ∧
    countSubstr (display ["r".data, "a\"b".data])
      (container_id ["r".data] ["r".data, "a\"b".data]) = 1 ∧
    ¬ 3 ≤ countSubstr (display ["r".data, "a\"b".data])
      (container_id ["r".data] ["r".data, "a\"b".data]) := by decide

/-- C1 (amended): for the default configuration location the identifier is
the plain string form of the project root; otherwise it starts with the
character left brace, and — provided the chosen path's string form contains
only characters that Debug formatting leaves unescaped (printable ASCII
other than quote and backslash) — it contains the literal path of the
chosen file at least three times. -/
theorem container_id_amended (R C : Path) :
    (C = R ++ [dcDirS, configFileS] → container_id R C = display R) ∧
    (C ≠ R ++ [dcDirS, configFileS] →
      (container_id R C).head? = some '\x7b' ∧
      ((∀ comp ∈ C, ∀ ch ∈ comp, plainChar ch = true) →
        3 ≤ countSubstr (display C) (container_id R C))) := by
  constructor
  · intro h
    rw [container_id, if_pos h]
  · intro h
    constructor
    · rw [container_id, if_neg h,
        show "\x7b\"hostPath\":".data = '\x7b' :: "\"hostPath\":".data from by decide]
      rfl
    · intro hplain
      obtain ⟨A, B, C2, D, heq⟩ := container_id_nondefault R C h hplain
      rw [heq]
      exact countSubstr_three (display C) A B C2 D ⟨'/', relDisplay C, rfl⟩

/-- C1 witness: both branches of the amended statement evaluated at concrete
paths under the root `/r`. -/
theorem container_id_amended_witness :
    container_id ["r".data] (["r".data] ++ [dcDirS, configFileS]) = display ["r".data] ∧
    3 ≤ countSubstr (display ["r".data, "sub".data, "devcontainer.json".data])
      (container_id ["r".data] ["r".data, "sub".data, "devcontainer.json".data]) := by
  constructor
  · exact (container_id_amended ["r".data] (["r".data] ++ [dcDirS, configFileS])).1 rfl
  · exact ((container_id_amended ["r".data]
      ["r".data, "sub".data, "devcontainer.json".data]).2 (by decide)).2 (by decide)

end Cope
